import Mathlib

/-!
Shallow embedding of the core of `AirBnBDataHandler.js` (the chainable
filter/aggregation engine over Airbnb listings).

Modelling conventions:
* JavaScript numbers are modelled as rationals (`ℚ`); the decoder guarantees
  the numeric fields are finite numbers (defaulting to 0), so no NaN arises in
  the core operations.
* JavaScript objects used as dictionaries are modelled as association lists of
  own properties.  `Object.values` enumerates own properties in the order
  mandated by the language: keys that are canonical array indices first, in
  ascending numeric order, then the remaining string keys in insertion order.
* `Array.prototype.sort` with a consistent comparator is a stable sort
  (mandated since ES2019); any stable sort produces the same output, so it is
  modelled as a stable insertion sort using the comparator's ordering.
* The handler's closure state is modelled as an explicit record holding the
  `listingData` snapshot (never reassigned) and the `currentData` snapshot.
-/

/-- One listing row. The decoder parses `price`, `bedrooms` and
`review_scores_rating` as numbers (defaulting to 0) and keeps every other
column verbatim; the extra columns are carried opaquely in `other`. -/
structure Listing where
  price : ℚ
  bedrooms : ℚ
  review_scores_rating : ℚ
  host_id : String
  host_name : String
  other : List (String × String)
deriving DecidableEq, Repr

/-- JavaScript `x || d` on numbers (no NaN in decoded data): falsy means 0. -/
def jsNumOr (x d : ℚ) : ℚ := if x = 0 then d else x

/-- JavaScript `s || d` on strings: falsy means the empty string. -/
def jsStrOr (s d : String) : String := if s = "" then d else s

/-- Body of `filterByPrice(minPrice, maxPrice)`:
`currentData.filter(item => item.price >= minPrice && item.price <= maxPrice)`. -/
def filterByPrice (minPrice maxPrice : ℚ) (currentData : List Listing) : List Listing :=
  currentData.filter (fun item => decide (minPrice ≤ item.price) && decide (item.price ≤ maxPrice))

/-- Body of `filterByBedrooms(minRooms, maxRooms)`. -/
def filterByBedrooms (minRooms maxRooms : ℚ) (currentData : List Listing) : List Listing :=
  currentData.filter (fun item => decide (minRooms ≤ item.bedrooms) && decide (item.bedrooms ≤ maxRooms))

/-- Body of `filterByReviewScore(minScore, maxScore)`. -/
def filterByReviewScore (minScore maxScore : ℚ) (currentData : List Listing) : List Listing :=
  currentData.filter (fun item =>
    decide (minScore ≤ item.review_scores_rating) && decide (item.review_scores_rating ≤ maxScore))

/-- Closure state of `createDataHandler`: `listingData` is the captured
argument (never reassigned), `currentData` the working snapshot. -/
structure HandlerState where
  original : List Listing
  current : List Listing
deriving DecidableEq, Repr

/-- Handler construction: `let currentData = [...listingData]`. -/
def initHandler (listingData : List Listing) : HandlerState :=
  ⟨listingData, listingData⟩

/-- The state-changing operations of the chainable handler. -/
inductive Op where
  | priceF (minPrice maxPrice : ℚ)
  | bedroomsF (minRooms maxRooms : ℚ)
  | reviewF (minScore maxScore : ℚ)
  | resetF
deriving DecidableEq, Repr

/-- Effect of one handler call on the closure state. Filters reassign
`currentData` to a filter of the previous `currentData`; `reset()` reassigns
`currentData = [...listingData]`. `listingData` is never written. -/
def applyOp : Op → HandlerState → HandlerState
  | .priceF a b, s => ⟨s.original, filterByPrice a b s.current⟩
  | .bedroomsF a b, s => ⟨s.original, filterByBedrooms a b s.current⟩
  | .reviewF a b, s => ⟨s.original, filterByReviewScore a b s.current⟩
  | .resetF, s => ⟨s.original, s.original⟩

/-- A chained sequence of handler calls. -/
def runOps (ops : List Op) (s : HandlerState) : HandlerState :=
  ops.foldl (fun s op => applyOp op s) s

/-- Accumulator cell of the `byRooms` reduce: `{ total, count }`. -/
structure RoomAcc where
  total : ℚ
  count : Nat
deriving DecidableEq, Repr

/-- Result shape of `computeStats()`. The `avgPriceByBedrooms` object is
modelled as an association list from bedroom-count value to average price. -/
structure Stats where
  totalListings : Nat
  avgPrice : ℚ
  avgPriceByBedrooms : List (ℚ × ℚ)
deriving DecidableEq, Repr

/-- Key of the `byRooms` accumulator: `item.bedrooms || 0`. -/
def roomKey (item : Listing) : ℚ := jsNumOr item.bedrooms 0

/-- `acc[key].total += item.price; acc[key].count += 1` on the first entry
whose key matches (JS objects hold at most one property per key). -/
def bumpRoom : List (ℚ × RoomAcc) → ℚ → ℚ → List (ℚ × RoomAcc)
  | [], _, _ => []
  | (k, rc) :: es, key, price =>
    if k = key then (k, ⟨rc.total + price, rc.count + 1⟩) :: es
    else (k, rc) :: bumpRoom es key price

/-- One step of the `byRooms` reduce: `if (!acc[key]) acc[key] = {total: 0,
count: 0}; acc[key].total += item.price; acc[key].count += 1`. -/
def roomStep (acc : List (ℚ × RoomAcc)) (item : Listing) : List (ℚ × RoomAcc) :=
  let key := roomKey item
  let acc' := if acc.any (fun e => decide (e.1 = key)) then acc else acc ++ [(key, ⟨0, 0⟩)]
  bumpRoom acc' key item.price

/-- The `byRooms` accumulator after the reduce over `currentData`. -/
def byRooms (currentData : List Listing) : List (ℚ × RoomAcc) :=
  currentData.foldl roomStep []

/-- `currentData.reduce((sum, item) => sum + (item.price || 0), 0)`. -/
def totalPrice (currentData : List Listing) : ℚ :=
  currentData.foldl (fun sum item => sum + jsNumOr item.price 0) 0

/-- Body of `computeStats()`: early return of the zero result on an empty
snapshot, otherwise overall average and per-bedroom averages. -/
def computeStats (currentData : List Listing) : Stats :=
  if currentData.length = 0 then ⟨0, 0, []⟩
  else
    ⟨currentData.length, totalPrice currentData / currentData.length,
      (byRooms currentData).map (fun e => (e.1, e.2.total / e.2.count))⟩

/-- Lookup in the `avgPriceByBedrooms` object of a stats result. -/
def lookupAvg (s : Stats) (b : ℚ) : Option ℚ :=
  (s.avgPriceByBedrooms.find? (fun e => decide (e.1 = b))).map (fun e => e.2)

/-- Review-score-to-price ratio used by the best-value selector. -/
def ratio (item : Listing) : ℚ := item.review_scores_rating / item.price

/-- Loop of `computeBestValue()`: running best record and best ratio. -/
def bestLoop : List Listing → Option Listing → ℚ → Option Listing
  | [], best, _ => best
  | item :: rest, best, bestRatio =>
    if 0 < item.price then
      if bestRatio < ratio item then bestLoop rest (some item) (ratio item)
      else bestLoop rest best bestRatio
    else bestLoop rest best bestRatio

/-- Body of `computeBestValue()`: `best = null`, `bestRatio = 0`, then the
single pass over `currentData`. -/
def computeBestValue (currentData : List Listing) : Option Listing :=
  bestLoop currentData none 0

/-- One entry of the host tally / ranking:
`{ host_id, host_name, listingsCount }`. -/
structure HostEntry where
  host_id : String
  host_name : String
  listingsCount : Nat
deriving DecidableEq, Repr

/-- `acc[item.host_id].listingsCount += 1` on the first entry whose key
matches. -/
def bumpHost : List HostEntry → String → List HostEntry
  | [], _ => []
  | e :: es, h =>
    if e.host_id = h then { e with listingsCount := e.listingsCount + 1 } :: es
    else e :: bumpHost es h

/-- One step of the ranking reduce: skip records with a falsy `host_id`,
create the entry (with first-seen `host_name || ""` and count 0) when the key
is absent, then increment its count. -/
def hostStep (acc : List HostEntry) (item : Listing) : List HostEntry :=
  if item.host_id = "" then acc
  else
    let acc' :=
      if acc.any (fun e => decide (e.host_id = item.host_id)) then acc
      else acc ++ [⟨item.host_id, jsStrOr item.host_name "", 0⟩]
    bumpHost acc' item.host_id

/-- The tally object of `computeHostRanking()` as an association list in
property-insertion order. -/
def hostTally (currentData : List Listing) : List HostEntry :=
  currentData.foldl hostStep []

/-- Numeric value of a digit-string key. -/
def keyToNat (s : String) : Nat :=
  s.data.foldl (fun n c => 10 * n + (c.toNat - 48)) 0

/-- Whether a string is a canonical array-index key in the sense of the
ECMAScript own-property ordering: a non-empty digit string with no leading
zero (except "0" itself) whose value is below 2^32 - 1. -/
def isArrayIndexKey (s : String) : Bool :=
  decide (s.data ≠ []) && s.data.all Char.isDigit &&
    (decide (s = "0") || decide (s.data.head? ≠ some '0')) &&
    decide (keyToNat s < 4294967295)

/-- Stable insertion, ascending by numeric key value. -/
def insertByKeyAsc (x : HostEntry) : List HostEntry → List HostEntry
  | [] => [x]
  | y :: ys =>
    if keyToNat x.host_id < keyToNat y.host_id then x :: y :: ys
    else y :: insertByKeyAsc x ys

/-- Ascending sort by numeric key value (array-index keys are distinct, so
stability is immaterial here). -/
def sortByKeyAsc : List HostEntry → List HostEntry
  | [] => []
  | x :: xs => insertByKeyAsc x (sortByKeyAsc xs)

/-- `Object.values` on the tally object: own properties whose keys are
canonical array indices first, in ascending numeric order, then the remaining
properties in insertion order. -/
def jsOwnValues (entries : List HostEntry) : List HostEntry :=
  sortByKeyAsc (entries.filter (fun e => isArrayIndexKey e.host_id))
    ++ entries.filter (fun e => !isArrayIndexKey e.host_id)

/-- Stable insertion for `sort((a, b) => b.listingsCount - a.listingsCount)`:
an element moves past another only when its count is strictly larger. -/
def insertByCountDesc (x : HostEntry) : List HostEntry → List HostEntry
  | [] => [x]
  | y :: ys =>
    if y.listingsCount ≤ x.listingsCount then x :: y :: ys
    else y :: insertByCountDesc x ys

/-- Stable sort, descending by `listingsCount` (the unique stable-sort result
of the comparator `(a, b) => b.listingsCount - a.listingsCount`). -/
def sortByCountDesc : List HostEntry → List HostEntry
  | [] => []
  | x :: xs => insertByCountDesc x (sortByCountDesc xs)

/-- Body of `computeHostRanking()`: tally by host id, materialize the values,
sort descending by count. -/
def computeHostRanking (currentData : List Listing) : List HostEntry :=
  sortByCountDesc (jsOwnValues (hostTally currentData))

/-- JavaScript values that can be passed as the `dataToExport` argument of
`exportResults`. The decoded snapshot is `arrV`. -/
inductive JSVal where
  | undef
  | nullV
  | boolV (b : Bool)
  | numV (q : ℚ)
  | nanV
  | strV (s : String)
  | arrV (items : List Listing)
deriving DecidableEq, Repr

/-- JavaScript truthiness of the modelled values. -/
def truthy : JSVal → Bool
  | .undef => false
  | .nullV => false
  | .boolV b => b
  | .numV q => decide (q ≠ 0)
  | .nanV => false
  | .strV s => decide (s ≠ "")
  | .arrV _ => true

/-- Payload selection of `exportResults`: `const payload = dataToExport ||
currentData`. An omitted second argument defaults to `null`. -/
def exportPayload (dataToExport : JSVal) (currentData : List Listing) : JSVal :=
  if truthy dataToExport then dataToExport else .arrV currentData

/-- Division that reports rather than silently evaluating `x / 0`. -/
def divChecked (a b : ℚ) : Except String ℚ :=
  if b = 0 then .error "division by zero" else .ok (a / b)

/-- Best-value loop with every division checked. -/
def bestLoopChecked : List Listing → Option Listing → ℚ → Except String (Option Listing)
  | [], best, _ => .ok best
  | item :: rest, best, bestRatio =>
    if 0 < item.price then
      match divChecked item.review_scores_rating item.price with
      | .error msg => .error msg
      | .ok r =>
        if bestRatio < r then bestLoopChecked rest (some item) r
        else bestLoopChecked rest best bestRatio
    else bestLoopChecked rest best bestRatio

/-- `computeBestValue()` with every division checked. -/
def computeBestValueChecked (currentData : List Listing) : Except String (Option Listing) :=
  bestLoopChecked currentData none 0

/-- Per-bedroom averaging with every division checked. -/
def roomAvgsChecked : List (ℚ × RoomAcc) → Except String (List (ℚ × ℚ))
  | [] => .ok []
  | e :: rest =>
    match divChecked e.2.total e.2.count with
    | .error msg => .error msg
    | .ok a =>
      match roomAvgsChecked rest with
      | .error msg => .error msg
      | .ok r => .ok ((e.1, a) :: r)

/-- `computeStats()` with every division checked. -/
def computeStatsChecked (currentData : List Listing) : Except String Stats :=
  if currentData.length = 0 then .ok ⟨0, 0, []⟩
  else
    match divChecked (totalPrice currentData) currentData.length with
    | .error msg => .error msg
    | .ok avg =>
      match roomAvgsChecked (byRooms currentData) with
      | .error msg => .error msg
      | .ok avgs => .ok ⟨currentData.length, avg, avgs⟩

/-- Non-empty host ids of a snapshot in order of first encounter. -/
def firstHosts (seen : List String) : List Listing → List String
  | [] => []
  | r :: rest =>
    if r.host_id = "" || seen.contains r.host_id then firstHosts seen rest
    else r.host_id :: firstHosts (seen ++ [r.host_id]) rest

/-! Helper lemmas. -/

lemma count_filter_ite {α} [DecidableEq α] (p : α → Bool) (l : List α) (r : α) :
    (l.filter p).count r = if p r then l.count r else 0 := by
  by_cases h : p r
  · simp [h]
  · have hnot : r ∉ l.filter p := by simp [List.mem_filter, h]
    simp [h, List.count_eq_zero.mpr hnot]

lemma applyOp_original (op : Op) (s : HandlerState) : (applyOp op s).original = s.original := by
  cases op <;> rfl

lemma runOps_cons (op : Op) (ops : List Op) (s : HandlerState) :
    runOps (op :: ops) s = runOps ops (applyOp op s) := rfl

lemma runOps_inv (ops : List Op) (s : HandlerState) (d : List Listing)
    (h1 : s.original = d) (h2 : s.current.Sublist d) :
    (runOps ops s).original = d ∧ (runOps ops s).current.Sublist d := by
  induction ops generalizing s with
  | nil => exact ⟨h1, h2⟩
  | cons op ops ih =>
    rw [runOps_cons]
    refine ih (applyOp op s) ?_ ?_
    · rw [applyOp_original, h1]
    · cases op with
      | priceF a b => exact (List.filter_sublist s.current).trans h2
      | bedroomsF a b => exact (List.filter_sublist s.current).trans h2
      | reviewF a b => exact (List.filter_sublist s.current).trans h2
      | resetF =>
        show s.original.Sublist d
        rw [h1]

/-- C1: after `filterByPrice(a, b)` the new current snapshot keeps exactly the
records of the previous one whose price lies in `[a, b]` (membership, with
multiplicity), in their previous relative order (sublist), and an inverted
range yields the empty snapshot without any error; likewise for
`filterByBedrooms` over `bedrooms` and `filterByReviewScore` over
`review_scores_rating`. -/
theorem filter_range_exact (l : List Listing) (a b : ℚ) (r : Listing) :
    ((r ∈ filterByPrice a b l ↔ r ∈ l ∧ a ≤ r.price ∧ r.price ≤ b)
      ∧ (filterByPrice a b l).Sublist l
      ∧ ((filterByPrice a b l).count r = if a ≤ r.price ∧ r.price ≤ b then l.count r else 0)
      ∧ (b < a → filterByPrice a b l = []))
    ∧ ((r ∈ filterByBedrooms a b l ↔ r ∈ l ∧ a ≤ r.bedrooms ∧ r.bedrooms ≤ b)
      ∧ (filterByBedrooms a b l).Sublist l
      ∧ ((filterByBedrooms a b l).count r =
          if a ≤ r.bedrooms ∧ r.bedrooms ≤ b then l.count r else 0)
      ∧ (b < a → filterByBedrooms a b l = []))
    ∧ ((r ∈ filterByReviewScore a b l ↔
          r ∈ l ∧ a ≤ r.review_scores_rating ∧ r.review_scores_rating ≤ b)
      ∧ (filterByReviewScore a b l).Sublist l
      ∧ ((filterByReviewScore a b l).count r =
          if a ≤ r.review_scores_rating ∧ r.review_scores_rating ≤ b then l.count r else 0)
      ∧ (b < a → filterByReviewScore a b l = [])) := by
  refine ⟨⟨?_, List.filter_sublist l, ?_, ?_⟩, ⟨?_, List.filter_sublist l, ?_, ?_⟩,
    ⟨?_, List.filter_sublist l, ?_, ?_⟩⟩
  · simp [filterByPrice, List.mem_filter]
  · rw [filterByPrice, count_filter_ite]
    by_cases hP : a ≤ r.price ∧ r.price ≤ b <;> simp [hP]
  · intro hba
    simp only [filterByPrice, List.filter_eq_nil_iff, Bool.and_eq_true, decide_eq_true_eq]
    rintro x - ⟨h1, h2⟩
    linarith
  · simp [filterByBedrooms, List.mem_filter]
  · rw [filterByBedrooms, count_filter_ite]
    by_cases hP : a ≤ r.bedrooms ∧ r.bedrooms ≤ b <;> simp [hP]
  · intro hba
    simp only [filterByBedrooms, List.filter_eq_nil_iff, Bool.and_eq_true, decide_eq_true_eq]
    rintro x - ⟨h1, h2⟩
    linarith
  · simp [filterByReviewScore, List.mem_filter]
  · rw [filterByReviewScore, count_filter_ite]
    by_cases hP : a ≤ r.review_scores_rating ∧ r.review_scores_rating ≤ b <;> simp [hP]
  · intro hba
    simp only [filterByReviewScore, List.filter_eq_nil_iff, Bool.and_eq_true, decide_eq_true_eq]
    rintro x - ⟨h1, h2⟩
    linarith

/-- Witness for `filter_range_exact` at a concrete snapshot and inverted
range. -/
theorem filter_range_exact_witness :
    filterByPrice 5 2 [⟨3, 1, 4, "h", "n", []⟩] = [] :=
  (filter_range_exact [⟨3, 1, 4, "h", "n", []⟩] 5 2 ⟨3, 1, 4, "h", "n", []⟩).1.2.2.2
    (by norm_num)

/-- C2: for every chain of filter and reset calls, the captured `listingData`
snapshot is unchanged (value semantics: no operation writes it or any record),
the current snapshot is always a subsequence of the original in the original's
relative order, and every filter computes its result from the immediately
preceding current snapshot alone (its output ignores every other part of the
state). -/
theorem pipeline_invariant (ops : List Op) (d : List Listing) :
    (runOps ops (initHandler d)).original = d
    ∧ (runOps ops (initHandler d)).current.Sublist ((runOps ops (initHandler d)).original)
    ∧ (∀ (op : Op) (s t : HandlerState), op ≠ Op.resetF → s.current = t.current →
        (applyOp op s).current = (applyOp op t).current) := by
  obtain ⟨h1, h2⟩ := runOps_inv ops (initHandler d) d rfl (List.Sublist.refl d)
  refine ⟨h1, by rw [h1]; exact h2, ?_⟩
  intro op s t hne hcur
  cases op with
  | priceF a b => simp [applyOp, hcur]
  | bedroomsF a b => simp [applyOp, hcur]
  | reviewF a b => simp [applyOp, hcur]
  | resetF => exact absurd rfl hne

/-- Witness for `pipeline_invariant` on a concrete chain and a concrete pair
of states sharing the same current snapshot. -/
theorem pipeline_invariant_witness :
    (runOps [Op.priceF 0 10, Op.bedroomsF 1 2, Op.resetF, Op.reviewF 0 5]
        (initHandler [⟨3, 1, 4, "h", "n", []⟩])).original = [⟨3, 1, 4, "h", "n", []⟩]
      ∧ (applyOp (Op.priceF 0 10) ⟨[⟨3, 1, 4, "h", "n", []⟩], [⟨3, 1, 4, "h", "n", []⟩]⟩).current
        = (applyOp (Op.priceF 0 10) ⟨[], [⟨3, 1, 4, "h", "n", []⟩]⟩).current :=
  ⟨(pipeline_invariant [Op.priceF 0 10, Op.bedroomsF 1 2, Op.resetF, Op.reviewF 0 5]
      [⟨3, 1, 4, "h", "n", []⟩]).1,
    (pipeline_invariant [] []).2.2 (Op.priceF 0 10)
      ⟨[⟨3, 1, 4, "h", "n", []⟩], [⟨3, 1, 4, "h", "n", []⟩]⟩ ⟨[], [⟨3, 1, 4, "h", "n", []⟩]⟩
      (by decide) rfl⟩

/-- C6: after any chain of operations, `reset()` makes the current snapshot
element-for-element equal to the original snapshot (the loaded data), and the
value it returns is the same pipeline: the state with the original untouched
and the current snapshot replaced by the original. -/
theorem reset_restores_original (ops : List Op) (d : List Listing) :
    (applyOp Op.resetF (runOps ops (initHandler d))).current = d
    ∧ (applyOp Op.resetF (runOps ops (initHandler d))).original = d
    ∧ (∀ s : HandlerState, applyOp Op.resetF s = ⟨s.original, s.original⟩) := by
  obtain ⟨h1, -⟩ := runOps_inv ops (initHandler d) d rfl (List.Sublist.refl d)
  exact ⟨by simp [applyOp, h1], by simp [applyOp, h1], fun s => rfl⟩

/-- C7: price and bedrooms filters commute: applying `filterByPrice(a, b)`
then `filterByBedrooms(c, d)` to a snapshot yields exactly the snapshot
obtained by applying them in the other order. -/
theorem filters_commute (l : List Listing) (a b c d : ℚ) :
    filterByBedrooms c d (filterByPrice a b l) = filterByPrice a b (filterByBedrooms c d l) := by
  simp only [filterByPrice, filterByBedrooms, List.filter_filter]
  exact List.filter_congr (fun x _ => by rw [Bool.and_comm])

/-- C10: the payload of `exportResults` is chosen by `dataToExport ||
currentData`, so every falsy second argument (omitted/null, undefined, 0, NaN,
the empty string, false) exports the current snapshot instead of the argument;
a falsy literal can never itself be the exported document, and a truthy
argument is exported as given. -/
theorem export_falsy_payload (current : List Listing) (v : JSVal) :
    exportPayload .nullV current = .arrV current
    ∧ exportPayload .undef current = .arrV current
    ∧ exportPayload (.numV 0) current = .arrV current
    ∧ exportPayload .nanV current = .arrV current
    ∧ exportPayload (.strV "") current = .arrV current
    ∧ exportPayload (.boolV false) current = .arrV current
    ∧ (truthy v = false → exportPayload v current = .arrV current)
    ∧ (truthy v = false → exportPayload v current ≠ v)
    ∧ (truthy v = true → exportPayload v current = v) := by
  refine ⟨rfl, rfl, by simp [exportPayload, truthy], rfl, by simp [exportPayload, truthy],
    rfl, ?_, ?_, ?_⟩
  · intro hf
    simp [exportPayload, hf]
  · intro hf heq
    rw [exportPayload, hf] at heq
    simp only [Bool.false_eq_true, if_false] at heq
    rw [← heq] at hf
    simp [truthy] at hf
  · intro ht
    simp [exportPayload, ht]

/-- Witness for `export_falsy_payload` at the falsy argument 0 and a truthy
argument. -/
theorem export_falsy_payload_witness :
    exportPayload (.numV 0) [⟨3, 1, 4, "h", "n", []⟩] ≠ .numV 0
    ∧ exportPayload (.numV 7) [⟨3, 1, 4, "h", "n", []⟩] = .numV 7 :=
  ⟨(export_falsy_payload [⟨3, 1, 4, "h", "n", []⟩] (.numV 0)).2.2.2.2.2.2.2.1 (by decide),
    (export_falsy_payload [⟨3, 1, 4, "h", "n", []⟩] (.numV 7)).2.2.2.2.2.2.2.2 (by decide)⟩

lemma bestLoop_none (l : List Listing) (best : Option Listing) (br : ℚ) :
    bestLoop l best br = none ↔ best = none ∧ ∀ r ∈ l, 0 < r.price → ratio r ≤ br := by
  induction l generalizing best br with
  | nil => simp [bestLoop]
  | cons x xs ih =>
    by_cases hq : 0 < x.price
    · by_cases hlt : br < ratio x
      · rw [bestLoop, if_pos hq, if_pos hlt, ih]
        constructor
        · rintro ⟨h, -⟩
          exact absurd h (by simp)
        · rintro ⟨-, hall⟩
          exact absurd (hall x (by simp) hq) (by linarith)
      · have hx : ratio x ≤ br := not_lt.mp hlt
        rw [bestLoop, if_pos hq, if_neg hlt, ih]
        simp [List.forall_mem_cons, hq, hx]
    · rw [bestLoop, if_neg hq, ih]
      simp [List.forall_mem_cons, hq]

lemma bestLoop_some (l : List Listing) (best : Option Listing) (br : ℚ) (r : Listing)
    (h : bestLoop l best br = some r) :
    (best = some r ∧ ∀ x ∈ l, 0 < x.price → ratio x ≤ br)
    ∨ (∃ l₁ l₂, l = l₁ ++ r :: l₂ ∧ 0 < r.price ∧ br < ratio r ∧
        (∀ x ∈ l₁, 0 < x.price → ratio x < ratio r) ∧
        (∀ x ∈ l₂, 0 < x.price → ratio x ≤ ratio r)) := by
  induction l generalizing best br with
  | nil =>
    rw [bestLoop] at h
    exact Or.inl ⟨h, by simp⟩
  | cons x xs ih =>
    by_cases hq : 0 < x.price
    · by_cases hlt : br < ratio x
      · rw [bestLoop, if_pos hq, if_pos hlt] at h
        rcases ih (some x) (ratio x) h with ⟨hbest, hall⟩ | ⟨l₁, l₂, heq, hqr, hbr, he, hl⟩
        · obtain rfl : x = r := by injection hbest
          exact Or.inr ⟨[], xs, rfl, hq, hlt, by simp, hall⟩
        · refine Or.inr ⟨x :: l₁, l₂, by rw [heq, List.cons_append], hqr,
            lt_trans hlt hbr, ?_, hl⟩
          intro y hy hyq
          rcases List.mem_cons.mp hy with rfl | hy'
          · exact hbr
          · exact he y hy' hyq
      · rw [bestLoop, if_pos hq, if_neg hlt] at h
        rcases ih best br h with ⟨hbest, hall⟩ | ⟨l₁, l₂, heq, hqr, hbr, he, hl⟩
        · refine Or.inl ⟨hbest, ?_⟩
          intro y hy hyq
          rcases List.mem_cons.mp hy with rfl | hy'
          · exact not_lt.mp hlt
          · exact hall y hy' hyq
        · refine Or.inr ⟨x :: l₁, l₂, by rw [heq, List.cons_append], hqr, hbr, ?_, hl⟩
          intro y hy hyq
          rcases List.mem_cons.mp hy with rfl | hy'
          · exact lt_of_le_of_lt (not_lt.mp hlt) hbr
          · exact he y hy' hyq
    · rw [bestLoop, if_neg hq] at h
      rcases ih best br h with ⟨hbest, hall⟩ | ⟨l₁, l₂, heq, hqr, hbr, he, hl⟩
      · refine Or.inl ⟨hbest, ?_⟩
        intro y hy hyq
        rcases List.mem_cons.mp hy with rfl | hy'
        · exact absurd hyq hq
        · exact hall y hy' hyq
      · refine Or.inr ⟨x :: l₁, l₂, by rw [heq, List.cons_append], hqr, hbr, ?_, hl⟩
        intro y hy hyq
        rcases List.mem_cons.mp hy with rfl | hy'
        · exact absurd hyq hq
        · exact he y hy' hyq

/-- C3: `computeBestValue()` considers only records with price strictly
greater than 0 (never dividing a record with price ≤ 0) and returns the first
record achieving the strict maximum ratio: a record whose ratio is strictly
positive, strictly greater than the ratio of every earlier qualifying record
(so a later record whose ratio merely equals the best so far never replaces
it), and at least the ratio of every later qualifying record; it returns no
result exactly when no qualifying record has ratio strictly greater than zero
(empty snapshot, all prices non-positive, or all qualifying ratios ≤ 0). -/
theorem best_value_first_strict_max (l : List Listing) :
    (computeBestValue l = none ↔ ∀ r ∈ l, 0 < r.price → ratio r ≤ 0)
    ∧ (∀ r, computeBestValue l = some r →
        0 < r.price ∧ 0 < ratio r ∧
        ∃ l₁ l₂, l = l₁ ++ r :: l₂ ∧
          (∀ x ∈ l₁, 0 < x.price → ratio x < ratio r) ∧
          (∀ x ∈ l₂, 0 < x.price → ratio x ≤ ratio r)) := by
  constructor
  · rw [computeBestValue, bestLoop_none]
    simp
  · intro r h
    rcases bestLoop_some l none 0 r h with ⟨hb, -⟩ | ⟨l₁, l₂, heq, hq, hbr, he, hl⟩
    · exact absurd hb (by simp)
    · exact ⟨hq, hbr, l₁, l₂, heq, he, hl⟩

/-- Witness for `best_value_first_strict_max` at a concrete snapshot: a
zero-price record followed by a qualifying one; the qualifying record is
selected and the zero-price record is never considered. -/
theorem best_value_first_strict_max_witness :
    0 < (⟨1, 0, 5, "", "", []⟩ : Listing).price
    ∧ 0 < ratio ⟨1, 0, 5, "", "", []⟩
    ∧ ∃ l₁ l₂, [⟨0, 0, 10, "", "", []⟩, (⟨1, 0, 5, "", "", []⟩ : Listing)]
        = l₁ ++ ⟨1, 0, 5, "", "", []⟩ :: l₂ ∧
        (∀ x ∈ l₁, 0 < x.price → ratio x < ratio ⟨1, 0, 5, "", "", []⟩)
        ∧ (∀ x ∈ l₂, 0 < x.price → ratio x ≤ ratio ⟨1, 0, 5, "", "", []⟩) :=
  (best_value_first_strict_max [⟨0, 0, 10, "", "", []⟩, ⟨1, 0, 5, "", "", []⟩]).2
    ⟨1, 0, 5, "", "", []⟩ (by simp [computeBestValue, bestLoop, ratio])

lemma jsNumOr_zero (q : ℚ) : jsNumOr q 0 = q := by
  by_cases h : q = 0 <;> simp [jsNumOr, h]

lemma roomKey_eq_bedrooms (item : Listing) : roomKey item = item.bedrooms := by
  rw [roomKey, jsNumOr_zero]

lemma foldl_price_sum (l : List Listing) (a : ℚ) :
    l.foldl (fun sum item => sum + jsNumOr item.price 0) a = a + (l.map Listing.price).sum := by
  induction l generalizing a with
  | nil => simp
  | cons x xs ih =>
    rw [List.foldl_cons, ih, jsNumOr_zero]
    simp [add_assoc]

lemma totalPrice_eq_sum (l : List Listing) : totalPrice l = (l.map Listing.price).sum := by
  rw [totalPrice, foldl_price_sum, zero_add]

lemma bumpRoom_find_self (acc : List (ℚ × RoomAcc)) (k p : ℚ) :
    (bumpRoom acc k p).find? (fun e => decide (e.1 = k)) =
      (acc.find? (fun e => decide (e.1 = k))).map
        (fun e => (e.1, ⟨e.2.total + p, e.2.count + 1⟩)) := by
  induction acc with
  | nil => rfl
  | cons e es ih =>
    obtain ⟨k', rc⟩ := e
    by_cases h : k' = k
    · subst h
      simp [bumpRoom]
    · simp [bumpRoom, h, ih]

lemma bumpRoom_find_other (acc : List (ℚ × RoomAcc)) (k p k' : ℚ) (h : k' ≠ k) :
    (bumpRoom acc k p).find? (fun e => decide (e.1 = k')) =
      acc.find? (fun e => decide (e.1 = k')) := by
  induction acc with
  | nil => rfl
  | cons e es ih =>
    obtain ⟨k₀, rc⟩ := e
    by_cases h0 : k₀ = k
    · subst h0
      have : ¬(k₀ = k') := fun hc => h (hc ▸ rfl)
      simp [bumpRoom, this, Ne.symm h]
    · by_cases h1 : k₀ = k'
      · subst h1
        simp [bumpRoom, h0]
      · simp [bumpRoom, h0, h1, ih]

lemma bumpRoom_append_new (acc : List (ℚ × RoomAcc)) (k p : ℚ) (h : ∀ e ∈ acc, e.1 ≠ k) :
    bumpRoom (acc ++ [(k, ⟨0, 0⟩)]) k p = acc ++ [(k, ⟨p, 1⟩)] := by
  induction acc with
  | nil => simp [bumpRoom]
  | cons e es ih =>
    obtain ⟨k₀, rc⟩ := e
    have hne : k₀ ≠ k := h (k₀, rc) (by simp)
    simp only [List.cons_append, bumpRoom, hne, if_false]
    exact congrArg (List.cons (k₀, rc)) (ih (fun e he => h e (by simp [he])))

lemma roomsFold_find_some (l : List Listing) (acc : List (ℚ × RoomAcc)) (k : ℚ)
    (e : ℚ × RoomAcc) (hacc : acc.find? (fun e' => decide (e'.1 = k)) = some e) :
    (l.foldl roomStep acc).find? (fun e' => decide (e'.1 = k)) =
      some (e.1, ⟨e.2.total + ((l.filter (fun r => decide (roomKey r = k))).map Listing.price).sum,
        e.2.count + l.countP (fun r => decide (roomKey r = k))⟩) := by
  induction l generalizing acc e with
  | nil => simp [hacc]
  | cons x xs ih =>
    rw [List.foldl_cons]
    by_cases hkx : roomKey x = k
    · have hany : acc.any (fun e' => decide (e'.1 = roomKey x)) = true := by
        rw [hkx, List.any_eq_true]
        exact ⟨e, List.mem_of_find?_eq_some hacc, by simpa using List.find?_some hacc⟩
      have hstep : roomStep acc x = bumpRoom acc (roomKey x) x.price := by
        rw [roomStep]
        simp only [hany, if_true]
      have hfind : (roomStep acc x).find? (fun e' => decide (e'.1 = k)) =
          some (e.1, ⟨e.2.total + x.price, e.2.count + 1⟩) := by
        rw [hstep, hkx, bumpRoom_find_self, hacc]
        rfl
      rw [ih (roomStep acc x) _ hfind,
        List.filter_cons_of_pos (by simp [hkx]), List.countP_cons, List.map_cons, List.sum_cons]
      have hpredx : (decide (roomKey x = k)) = true := by simp [hkx]
      dsimp only
      rw [hpredx, if_pos rfl]
      simp only [Option.some.injEq, Prod.mk.injEq, RoomAcc.mk.injEq, eq_self_iff_true, true_and]
      exact ⟨by ring, by omega⟩
    · have hpred : (fun r => decide (roomKey r = k)) x = false := by simp [hkx]
      by_cases hany : acc.any (fun e' => decide (e'.1 = roomKey x)) = true
      · have hstep : roomStep acc x = bumpRoom acc (roomKey x) x.price := by
          rw [roomStep]
          simp only [hany, if_true]
        have hfind : (roomStep acc x).find? (fun e' => decide (e'.1 = k)) = some e := by
          rw [hstep, bumpRoom_find_other _ _ _ _ (fun hc => hkx hc.symm)]
          exact hacc
        rw [ih (roomStep acc x) _ hfind, List.filter_cons_of_neg (by simp [hkx]),
          List.countP_cons]
        simp [hpred]
      · have hany0 : acc.any (fun e' => decide (e'.1 = roomKey x)) = false := by
          simp only [Bool.not_eq_true] at hany
          exact hany
        have hnomem : ∀ e' ∈ acc, e'.1 ≠ roomKey x := by
          rw [List.any_eq_false] at hany0
          intro e' he' hc
          exact hany0 e' he' (by simp [hc])
        have hstep : roomStep acc x = acc ++ [(roomKey x, ⟨x.price, 1⟩)] := by
          rw [roomStep]
          simp only [hany0, Bool.false_eq_true, if_false]
          exact bumpRoom_append_new acc (roomKey x) x.price hnomem
        have hfind : (roomStep acc x).find? (fun e' => decide (e'.1 = k)) = some e := by
          rw [hstep, List.find?_append, hacc]
          rfl
        rw [ih (roomStep acc x) _ hfind, List.filter_cons_of_neg (by simp [hkx]),
          List.countP_cons]
        simp [hpred]

lemma roomsFold_find_none (l : List Listing) (acc : List (ℚ × RoomAcc)) (k : ℚ)
    (hacc : acc.find? (fun e' => decide (e'.1 = k)) = none) :
    (l.foldl roomStep acc).find? (fun e' => decide (e'.1 = k)) =
      if l.countP (fun r => decide (roomKey r = k)) = 0 then none
      else some (k, ⟨((l.filter (fun r => decide (roomKey r = k))).map Listing.price).sum,
        l.countP (fun r => decide (roomKey r = k))⟩) := by
  induction l generalizing acc with
  | nil => simp [hacc]
  | cons x xs ih =>
    rw [List.foldl_cons]
    by_cases hkx : roomKey x = k
    · have hnone : ∀ e' ∈ acc, ¬((fun e' => decide (e'.1 = k)) e' = true) :=
        List.find?_eq_none.mp hacc
      have hany0 : acc.any (fun e' => decide (e'.1 = roomKey x)) = false := by
        rw [hkx, List.any_eq_false]
        exact hnone
      have hnomem : ∀ e' ∈ acc, e'.1 ≠ roomKey x := by
        intro e' he' hc
        exact hnone e' he' (by simp [hc, hkx])
      have hstep : roomStep acc x = acc ++ [(roomKey x, ⟨x.price, 1⟩)] := by
        rw [roomStep]
        simp only [hany0, Bool.false_eq_true, if_false]
        exact bumpRoom_append_new acc (roomKey x) x.price hnomem
      have hfind : (roomStep acc x).find? (fun e' => decide (e'.1 = k)) =
          some (roomKey x, ⟨x.price, 1⟩) := by
        rw [hstep, List.find?_append, hacc]
        simp [hkx]
      rw [roomsFold_find_some xs (roomStep acc x) k _ hfind,
        List.filter_cons_of_pos (by simp [hkx]), List.countP_cons, List.map_cons, List.sum_cons]
      have hpredx : (decide (roomKey x = k)) = true := by simp [hkx]
      dsimp only
      rw [hpredx, if_pos rfl, if_neg (by omega)]
      simp only [Option.some.injEq, Prod.mk.injEq, RoomAcc.mk.injEq]
      exact ⟨hkx, by ring, by omega⟩
    · have hpred : (fun r => decide (roomKey r = k)) x = false := by simp [hkx]
      by_cases hany : acc.any (fun e' => decide (e'.1 = roomKey x)) = true
      · have hstep : roomStep acc x = bumpRoom acc (roomKey x) x.price := by
          rw [roomStep]
          simp only [hany, if_true]
        have hfind : (roomStep acc x).find? (fun e' => decide (e'.1 = k)) = none := by
          rw [hstep, bumpRoom_find_other _ _ _ _ (fun hc => hkx hc.symm)]
          exact hacc
        rw [ih (roomStep acc x) hfind, List.filter_cons_of_neg (by simp [hkx]), List.countP_cons]
        simp [hpred]
      · have hany0 : acc.any (fun e' => decide (e'.1 = roomKey x)) = false := by
          simp only [Bool.not_eq_true] at hany
          exact hany
        have hnomem : ∀ e' ∈ acc, e'.1 ≠ roomKey x := by
          rw [List.any_eq_false] at hany0
          intro e' he' hc
          exact hany0 e' he' (by simp [hc])
        have hstep : roomStep acc x = acc ++ [(roomKey x, ⟨x.price, 1⟩)] := by
          rw [roomStep]
          simp only [hany0, Bool.false_eq_true, if_false]
          exact bumpRoom_append_new acc (roomKey x) x.price hnomem
        have hfind : (roomStep acc x).find? (fun e' => decide (e'.1 = k)) = none := by
          rw [hstep, List.find?_append, hacc]
          simp [hkx]
        rw [ih (roomStep acc x) hfind, List.filter_cons_of_neg (by simp [hkx]), List.countP_cons]
        simp [hpred]

lemma bumpRoom_mem (acc : List (ℚ × RoomAcc)) (k p : ℚ) :
    ∀ e ∈ bumpRoom acc k p, e ∈ acc ∨ ∃ e' ∈ acc, e = (e'.1, ⟨e'.2.total + p, e'.2.count + 1⟩) := by
  induction acc with
  | nil => simp [bumpRoom]
  | cons e₀ es ih =>
    obtain ⟨k₀, rc⟩ := e₀
    by_cases h : k₀ = k
    · intro e he
      rw [bumpRoom, if_pos h] at he
      rcases List.mem_cons.mp he with rfl | hes
      · exact Or.inr ⟨(k₀, rc), by simp, rfl⟩
      · exact Or.inl (by simp [hes])
    · intro e he
      rw [bumpRoom, if_neg h] at he
      rcases List.mem_cons.mp he with rfl | hes
      · exact Or.inl (by simp)
      · rcases ih e hes with hmem | ⟨e', he', heq⟩
        · exact Or.inl (by simp [hmem])
        · exact Or.inr ⟨e', by simp [he'], heq⟩

lemma roomsFold_count_pos (l : List Listing) (acc : List (ℚ × RoomAcc))
    (h : ∀ e ∈ acc, 1 ≤ e.2.count) : ∀ e ∈ l.foldl roomStep acc, 1 ≤ e.2.count := by
  induction l generalizing acc with
  | nil => exact h
  | cons x xs ih =>
    rw [List.foldl_cons]
    apply ih
    intro e he
    by_cases hany : acc.any (fun e' => decide (e'.1 = roomKey x)) = true
    · rw [roomStep] at he
      simp only [hany, if_true] at he
      rcases bumpRoom_mem acc (roomKey x) x.price e he with hmem | ⟨e', he', rfl⟩
      · exact h e hmem
      · have := h e' he'
        simp only
        omega
    · have hany0 : acc.any (fun e' => decide (e'.1 = roomKey x)) = false := by
        simp only [Bool.not_eq_true] at hany
        exact hany
      have hnomem : ∀ e' ∈ acc, e'.1 ≠ roomKey x := by
        rw [List.any_eq_false] at hany0
        intro e' he' hc
        exact hany0 e' he' (by simp [hc])
      rw [roomStep] at he
      simp only [hany0, Bool.false_eq_true, if_false] at he
      rw [bumpRoom_append_new acc (roomKey x) x.price hnomem] at he
      rcases List.mem_append.mp he with hmem | hnew
      · exact h e hmem
      · simp only [List.mem_singleton] at hnew
        subst hnew
        exact le_refl 1

lemma byRooms_count_pos (l : List Listing) : ∀ e ∈ byRooms l, 1 ≤ e.2.count :=
  roomsFold_count_pos l [] (by simp)

/-- C5: `computeStats()` returns the number of current records, the arithmetic
mean of their prices (zero on the empty snapshot, where the division branch is
never reached), and a per-bedroom mapping that sends each bedroom-count value
occurring in the snapshot to the mean price of exactly the records with that
bedroom count, and is undefined on bedroom counts that occur in no record
(empty mapping when there are no records). -/
theorem stats_counts_and_means (l : List Listing) (b : ℚ) :
    (computeStats l).totalListings = l.length
    ∧ (computeStats l).avgPrice =
        (if l.length = 0 then 0 else (l.map Listing.price).sum / l.length)
    ∧ lookupAvg (computeStats l) b =
        (if (l.filter (fun r => decide (r.bedrooms = b))).length = 0 then none
         else some (((l.filter (fun r => decide (r.bedrooms = b))).map Listing.price).sum
            / ((l.filter (fun r => decide (r.bedrooms = b))).length : ℚ))) := by
  have hkey : (fun r => decide (roomKey r = b)) = (fun r : Listing => decide (r.bedrooms = b)) := by
    funext r
    rw [roomKey_eq_bedrooms]
  by_cases hlen : l.length = 0
  · have hl : l = [] := List.length_eq_zero.mp hlen
    subst hl
    simp [computeStats, lookupAvg]
  · refine ⟨by simp [computeStats, hlen], by simp [computeStats, hlen, totalPrice_eq_sum], ?_⟩
    have hstats : (computeStats l).avgPriceByBedrooms =
        (byRooms l).map (fun e => (e.1, e.2.total / (e.2.count : ℚ))) := by
      simp [computeStats, hlen]
    rw [lookupAvg, hstats, List.find?_map]
    have hcomp : ((fun e : ℚ × ℚ => decide (e.1 = b)) ∘
        (fun e : ℚ × RoomAcc => (e.1, e.2.total / (e.2.count : ℚ)))) =
        (fun e : ℚ × RoomAcc => decide (e.1 = b)) := rfl
    rw [hcomp, byRooms, roomsFold_find_none l [] b rfl, hkey]
    by_cases hc : l.countP (fun r : Listing => decide (r.bedrooms = b)) = 0
    · rw [if_pos hc, if_pos (by rw [← List.countP_eq_length_filter]; exact hc)]
      rfl
    · rw [if_neg hc, if_neg (by rw [← List.countP_eq_length_filter]; exact hc),
        List.countP_eq_length_filter]
      rfl

lemma divChecked_ok (a b : ℚ) (h : b ≠ 0) : divChecked a b = .ok (a / b) := by
  rw [divChecked, if_neg h]

lemma bestLoopChecked_ok (l : List Listing) (best : Option Listing) (br : ℚ) :
    bestLoopChecked l best br = .ok (bestLoop l best br) := by
  induction l generalizing best br with
  | nil => rfl
  | cons x xs ih =>
    by_cases hq : 0 < x.price
    · have hne : x.price ≠ 0 := ne_of_gt hq
      rw [bestLoopChecked, bestLoop, if_pos hq, if_pos hq, divChecked_ok _ _ hne]
      show (if br < ratio x then bestLoopChecked xs (some x) (ratio x)
          else bestLoopChecked xs best br) = _
      by_cases hlt : br < ratio x
      · rw [if_pos hlt, if_pos hlt, ih]
      · rw [if_neg hlt, if_neg hlt, ih]
    · rw [bestLoopChecked, bestLoop, if_neg hq, if_neg hq, ih]

lemma roomAvgsChecked_ok (es : List (ℚ × RoomAcc)) (h : ∀ e ∈ es, e.2.count ≠ 0) :
    roomAvgsChecked es = .ok (es.map (fun e => (e.1, e.2.total / e.2.count))) := by
  induction es with
  | nil => rfl
  | cons e es ih =>
    have hne : ((e.2.count : ℚ)) ≠ 0 := Nat.cast_ne_zero.mpr (h e (by simp))
    rw [roomAvgsChecked, divChecked_ok _ _ hne, ih (fun e' he' => h e' (by simp [he']))]
    rfl

lemma computeStatsChecked_ok (l : List Listing) :
    computeStatsChecked l = .ok (computeStats l) := by
  by_cases hlen : l.length = 0
  · rw [computeStatsChecked, computeStats, if_pos hlen, if_pos hlen]
  · have hne : ((l.length : ℚ)) ≠ 0 := Nat.cast_ne_zero.mpr hlen
    rw [computeStatsChecked, computeStats, if_neg hlen, if_neg hlen, divChecked_ok _ _ hne,
      roomAvgsChecked_ok _ (fun e he => by have := byRooms_count_pos l e he; omega)]

/-- C9: every core operation is total on every well-formed snapshot, the empty
snapshot included: the checked variants of `computeStats` and
`computeBestValue`, in which every division reports a zero divisor instead of
evaluating, succeed on every snapshot and return exactly the unchecked
results (so no division by zero is ever reached), and every operation on the
empty snapshot returns its empty-state value rather than an error. -/
theorem core_operations_total (l : List Listing) (a b : ℚ) :
    computeStatsChecked l = .ok (computeStats l)
    ∧ computeBestValueChecked l = .ok (computeBestValue l)
    ∧ computeStats [] = ⟨0, 0, []⟩
    ∧ computeHostRanking [] = []
    ∧ computeBestValue [] = none
    ∧ filterByPrice a b [] = []
    ∧ filterByBedrooms a b [] = []
    ∧ filterByReviewScore a b [] = []
    ∧ applyOp Op.resetF (initHandler l) = initHandler l :=
  ⟨computeStatsChecked_ok l, bestLoopChecked_ok l none 0, rfl, rfl, rfl, rfl, rfl, rfl, rfl⟩

lemma bumpHost_map_id (acc : List HostEntry) (h : String) :
    (bumpHost acc h).map HostEntry.host_id = acc.map HostEntry.host_id := by
  induction acc with
  | nil => rfl
  | cons e es ih =>
    by_cases he : e.host_id = h
    · rw [bumpHost, if_pos he]
      rfl
    · rw [bumpHost, if_neg he, List.map_cons, List.map_cons, ih]

lemma bumpHost_find_self (acc : List HostEntry) (h : String) :
    (bumpHost acc h).find? (fun e => decide (e.host_id = h)) =
      (acc.find? (fun e => decide (e.host_id = h))).map
        (fun e => { e with listingsCount := e.listingsCount + 1 }) := by
  induction acc with
  | nil => rfl
  | cons e es ih =>
    by_cases he : e.host_id = h
    · rw [bumpHost, if_pos he]
      simp [he]
    · rw [bumpHost, if_neg he]
      simp [he, ih]

lemma bumpHost_find_other (acc : List HostEntry) (h h' : String) (hne : h' ≠ h) :
    (bumpHost acc h).find? (fun e => decide (e.host_id = h')) =
      acc.find? (fun e => decide (e.host_id = h')) := by
  induction acc with
  | nil => rfl
  | cons e es ih =>
    by_cases he : e.host_id = h
    · have : ¬(e.host_id = h') := fun hc => hne (hc ▸ he ▸ rfl)
      rw [bumpHost, if_pos he]
      simp [this, he, Ne.symm hne]
    · by_cases he' : e.host_id = h'
      · rw [bumpHost, if_neg he]
        simp [he']
      · rw [bumpHost, if_neg he]
        simp [he, he', ih]

lemma bumpHost_append_new (acc : List HostEntry) (h n : String)
    (hno : ∀ e ∈ acc, e.host_id ≠ h) :
    bumpHost (acc ++ [⟨h, n, 0⟩]) h = acc ++ [⟨h, n, 1⟩] := by
  induction acc with
  | nil => simp [bumpHost]
  | cons e es ih =>
    have hne : e.host_id ≠ h := hno e (by simp)
    simp only [List.cons_append, bumpHost, hne, if_false]
    exact congrArg (List.cons e) (ih (fun e' he' => hno e' (by simp [he'])))


lemma hostFold_map_id (l : List Listing) (acc : List HostEntry) :
    (l.foldl hostStep acc).map HostEntry.host_id =
      acc.map HostEntry.host_id ++ firstHosts (acc.map HostEntry.host_id) l := by
  induction l generalizing acc with
  | nil => simp [firstHosts]
  | cons x xs ih =>
    rw [List.foldl_cons]
    by_cases hempty : x.host_id = ""
    · have hstep : hostStep acc x = acc := by rw [hostStep, if_pos hempty]
      rw [hstep, ih, firstHosts, if_pos (by simp [hempty])]
    · by_cases hmem : x.host_id ∈ acc.map HostEntry.host_id
      · have hany : acc.any (fun e => decide (e.host_id = x.host_id)) = true := by
          rw [List.any_eq_true]
          obtain ⟨e, he, heid⟩ := List.mem_map.mp hmem
          exact ⟨e, he, by simp [heid]⟩
        have hstep : hostStep acc x = bumpHost acc x.host_id := by
          rw [hostStep, if_neg hempty]
          simp only [hany, if_true]
        rw [hstep, ih, bumpHost_map_id, firstHosts,
          if_pos (by simp [hempty, List.contains, hmem])]
      · have hany0 : acc.any (fun e => decide (e.host_id = x.host_id)) = false := by
          rw [List.any_eq_false]
          intro e he hc
          simp only [decide_eq_true_eq] at hc
          exact hmem (List.mem_map.mpr ⟨e, he, hc⟩)
        have hstep : hostStep acc x =
            acc ++ [⟨x.host_id, jsStrOr x.host_name "", 1⟩] := by
          rw [hostStep, if_neg hempty]
          simp only [hany0, Bool.false_eq_true, if_false]
          exact bumpHost_append_new acc x.host_id (jsStrOr x.host_name "")
            (fun e he hc => hmem (List.mem_map.mpr ⟨e, he, hc⟩))
        rw [hstep, ih, firstHosts, if_neg (by simp [hempty, List.contains, hmem])]
        simp [List.map_append]

lemma firstHosts_nodup (l : List Listing) (seen : List String) (h : seen.Nodup) :
    (seen ++ firstHosts seen l).Nodup := by
  induction l generalizing seen with
  | nil => simpa [firstHosts] using h
  | cons x xs ih =>
    rw [firstHosts]
    by_cases hc : x.host_id = "" ∨ x.host_id ∈ seen
    · rw [if_pos (by simp [List.contains]; tauto)]
      exact ih seen h
    · push_neg at hc
      rw [if_neg (by simp [List.contains]; tauto)]
      have hnd : (seen ++ [x.host_id]).Nodup := by
        rw [List.nodup_append]
        exact ⟨h, List.nodup_singleton _, by simpa using fun hm => hc.2 hm⟩
      have := ih (seen ++ [x.host_id]) hnd
      simpa [List.append_assoc] using this

lemma firstHosts_ne_empty (l : List Listing) (seen : List String) :
    ∀ s ∈ firstHosts seen l, s ≠ "" := by
  induction l generalizing seen with
  | nil => simp [firstHosts]
  | cons x xs ih =>
    rw [firstHosts]
    by_cases hc : (decide (x.host_id = "") || seen.contains x.host_id) = true
    · rw [if_pos hc]
      exact ih seen
    · rw [if_neg hc]
      intro s hs
      rcases List.mem_cons.mp hs with rfl | hs'
      · simp only [Bool.or_eq_true, decide_eq_true_eq] at hc
        exact fun he => hc (Or.inl he)
      · exact ih (seen ++ [x.host_id]) s hs'

lemma hostTally_map_id (l : List Listing) :
    (hostTally l).map HostEntry.host_id = firstHosts [] l := by
  rw [hostTally, hostFold_map_id]
  rfl

lemma hostTally_keys_nodup (l : List Listing) :
    ((hostTally l).map HostEntry.host_id).Nodup := by
  rw [hostTally_map_id]
  simpa using firstHosts_nodup l [] List.nodup_nil

lemma hostTally_keys_ne_empty (l : List Listing) :
    ∀ e ∈ hostTally l, e.host_id ≠ "" := by
  intro e he
  have : e.host_id ∈ (hostTally l).map HostEntry.host_id := List.mem_map.mpr ⟨e, he, rfl⟩
  rw [hostTally_map_id] at this
  exact firstHosts_ne_empty l [] e.host_id this

lemma find?_eq_some_of_mem_nodup (acc : List HostEntry)
    (hnd : (acc.map HostEntry.host_id).Nodup) (e : HostEntry) (he : e ∈ acc) :
    acc.find? (fun e' => decide (e'.host_id = e.host_id)) = some e := by
  induction acc with
  | nil => cases he
  | cons a as ih =>
    rcases List.mem_cons.mp he with rfl | has
    · simp
    · have hne : a.host_id ≠ e.host_id := by
        intro hc
        have : a.host_id ∈ as.map HostEntry.host_id := hc ▸ List.mem_map.mpr ⟨e, has, rfl⟩
        exact (List.nodup_cons.mp hnd).1 this
      rw [List.find?_cons_of_neg _ (by simp [hne]), ih (List.nodup_cons.mp hnd).2 has]

lemma hostStep_find_other (acc : List HostEntry) (x : Listing) (h : String)
    (hkx : x.host_id ≠ h) :
    (hostStep acc x).find? (fun e' => decide (e'.host_id = h)) =
      acc.find? (fun e' => decide (e'.host_id = h)) := by
  by_cases hempty : x.host_id = ""
  · rw [hostStep, if_pos hempty]
  · by_cases hany : acc.any (fun e' => decide (e'.host_id = x.host_id)) = true
    · rw [hostStep, if_neg hempty]
      simp only [hany, if_true]
      exact bumpHost_find_other acc x.host_id h (fun hc => hkx hc.symm)
    · have hany0 : acc.any (fun e' => decide (e'.host_id = x.host_id)) = false := by
        simp only [Bool.not_eq_true] at hany
        exact hany
      have hno : ∀ e' ∈ acc, e'.host_id ≠ x.host_id := by
        rw [List.any_eq_false] at hany0
        intro e' he' hc
        exact hany0 e' he' (by simp [hc])
      rw [hostStep, if_neg hempty]
      simp only [hany0, Bool.false_eq_true, if_false]
      rw [bumpHost_append_new acc x.host_id _ hno, List.find?_append]
      simp [hkx]

lemma hostFold_find_some (l : List Listing) (acc : List HostEntry) (h : String) (hne : h ≠ "")
    (e : HostEntry) (hacc : acc.find? (fun e' => decide (e'.host_id = h)) = some e) :
    (l.foldl hostStep acc).find? (fun e' => decide (e'.host_id = h)) =
      some { e with listingsCount :=
        e.listingsCount + l.countP (fun r => decide (r.host_id = h)) } := by
  induction l generalizing acc e with
  | nil => simpa using hacc
  | cons x xs ih =>
    rw [List.foldl_cons]
    by_cases hkx : x.host_id = h
    · have hempty : ¬(x.host_id = "") := by rw [hkx]; exact hne
      have hany : acc.any (fun e' => decide (e'.host_id = x.host_id)) = true := by
        rw [hkx, List.any_eq_true]
        exact ⟨e, List.mem_of_find?_eq_some hacc, by simpa using List.find?_some hacc⟩
      have hstep : hostStep acc x = bumpHost acc x.host_id := by
        rw [hostStep, if_neg hempty]
        simp only [hany, if_true]
      have hfind : (hostStep acc x).find? (fun e' => decide (e'.host_id = h)) =
          some { e with listingsCount := e.listingsCount + 1 } := by
        rw [hstep, hkx, bumpHost_find_self, hacc]
        rfl
      rw [ih _ _ hfind, List.countP_cons]
      have hpx : (decide (x.host_id = h)) = true := by simp [hkx]
      rw [hpx, if_pos rfl]
      simp only [Option.some.injEq, HostEntry.mk.injEq, eq_self_iff_true, true_and]
      omega
    · have hfind : (hostStep acc x).find? (fun e' => decide (e'.host_id = h)) = some e := by
        rw [hostStep_find_other acc x h hkx]
        exact hacc
      rw [ih _ _ hfind, List.countP_cons]
      have hpx : (decide (x.host_id = h)) = false := decide_eq_false hkx
      rw [hpx]
      simp

lemma hostFold_find_new (l : List Listing) (acc : List HostEntry) (h : String) (hne : h ≠ "")
    (hacc : acc.find? (fun e' => decide (e'.host_id = h)) = none) (r : Listing)
    (hfound : l.find? (fun r' => decide (r'.host_id = h)) = some r) :
    (l.foldl hostStep acc).find? (fun e' => decide (e'.host_id = h)) =
      some ⟨h, jsStrOr r.host_name "", l.countP (fun r' => decide (r'.host_id = h))⟩ := by
  induction l generalizing acc r with
  | nil => simp at hfound
  | cons x xs ih =>
    rw [List.foldl_cons]
    by_cases hkx : x.host_id = h
    · have hpx : (decide (x.host_id = h)) = true := by simp [hkx]
      rw [List.find?_cons_of_pos _ (by simp [hkx])] at hfound
      obtain rfl : x = r := by injection hfound
      have hempty : ¬(x.host_id = "") := by rw [hkx]; exact hne
      have hno : ∀ e' ∈ acc, e'.host_id ≠ x.host_id := by
        have hnone := List.find?_eq_none.mp hacc
        intro e' he' hc
        exact hnone e' he' (by simp [hc, hkx])
      have hany0 : acc.any (fun e' => decide (e'.host_id = x.host_id)) = false := by
        rw [List.any_eq_false]
        intro e' he' hc
        simp only [decide_eq_true_eq] at hc
        exact hno e' he' hc
      have hstep : hostStep acc x = acc ++ [⟨x.host_id, jsStrOr x.host_name "", 1⟩] := by
        rw [hostStep, if_neg hempty]
        simp only [hany0, Bool.false_eq_true, if_false]
        exact bumpHost_append_new acc x.host_id _ hno
      have hfind : (hostStep acc x).find? (fun e' => decide (e'.host_id = h)) =
          some ⟨x.host_id, jsStrOr x.host_name "", 1⟩ := by
        rw [hstep, List.find?_append, hacc]
        simp [hkx]
      rw [hostFold_find_some xs (hostStep acc x) h hne _ hfind, List.countP_cons, hpx,
        if_pos rfl]
      simp only [Option.some.injEq, HostEntry.mk.injEq]
      exact ⟨hkx, trivial, by omega⟩
    · have hpx : (decide (x.host_id = h)) = false := decide_eq_false hkx
      rw [List.find?_cons_of_neg _ (by simp [hkx])] at hfound
      have hfind : (hostStep acc x).find? (fun e' => decide (e'.host_id = h)) = none := by
        rw [hostStep_find_other acc x h hkx]
        exact hacc
      rw [ih _ hfind _ hfound, List.countP_cons, hpx]
      simp

lemma hostFold_find_none (l : List Listing) (acc : List HostEntry) (h : String)
    (hacc : acc.find? (fun e' => decide (e'.host_id = h)) = none) :
    l.find? (fun r' => decide (r'.host_id = h)) = none →
    (l.foldl hostStep acc).find? (fun e' => decide (e'.host_id = h)) = none := by
  induction l generalizing acc with
  | nil => exact fun _ => hacc
  | cons x xs ih =>
    intro hfound
    by_cases hkx : x.host_id = h
    · rw [List.find?_cons_of_pos _ (by simp [hkx])] at hfound
      exact absurd hfound (by simp)
    · rw [List.find?_cons_of_neg _ (by simp [hkx])] at hfound
      rw [List.foldl_cons]
      apply ih (hostStep acc x) ?_ hfound
      rw [hostStep_find_other acc x h hkx]
      exact hacc

lemma jsStrOr_empty (s : String) : jsStrOr s "" = s := by
  by_cases h : s = "" <;> simp [jsStrOr, h]

lemma insertByCountDesc_perm (x : HostEntry) (l : List HostEntry) :
    (insertByCountDesc x l).Perm (x :: l) := by
  induction l with
  | nil => exact List.Perm.refl _
  | cons y ys ih =>
    rw [insertByCountDesc]
    by_cases hc : y.listingsCount ≤ x.listingsCount
    · rw [if_pos hc]
    · rw [if_neg hc]
      exact (List.Perm.cons y ih).trans (List.Perm.swap x y ys)

lemma sortByCountDesc_perm (l : List HostEntry) : (sortByCountDesc l).Perm l := by
  induction l with
  | nil => exact List.Perm.refl _
  | cons x xs ih =>
    rw [sortByCountDesc]
    exact (insertByCountDesc_perm x _).trans (List.Perm.cons x ih)

lemma insertByKeyAsc_perm (x : HostEntry) (l : List HostEntry) :
    (insertByKeyAsc x l).Perm (x :: l) := by
  induction l with
  | nil => exact List.Perm.refl _
  | cons y ys ih =>
    rw [insertByKeyAsc]
    by_cases hc : keyToNat x.host_id < keyToNat y.host_id
    · rw [if_pos hc]
    · rw [if_neg hc]
      exact (List.Perm.cons y ih).trans (List.Perm.swap x y ys)

lemma sortByKeyAsc_perm (l : List HostEntry) : (sortByKeyAsc l).Perm l := by
  induction l with
  | nil => exact List.Perm.refl _
  | cons x xs ih =>
    rw [sortByKeyAsc]
    exact (insertByKeyAsc_perm x _).trans (List.Perm.cons x ih)

lemma jsOwnValues_perm (es : List HostEntry) : (jsOwnValues es).Perm es := by
  rw [jsOwnValues]
  refine ((sortByKeyAsc_perm _).append_right _).trans ?_
  exact List.filter_append_perm _ es

lemma computeHostRanking_perm (l : List Listing) :
    (computeHostRanking l).Perm (hostTally l) :=
  (sortByCountDesc_perm _).trans (jsOwnValues_perm _)

lemma pairwise_insertByCountDesc (x : HostEntry) (l : List HostEntry)
    (h : l.Pairwise (fun a b => b.listingsCount ≤ a.listingsCount)) :
    (insertByCountDesc x l).Pairwise (fun a b => b.listingsCount ≤ a.listingsCount) := by
  induction l with
  | nil => simp [insertByCountDesc]
  | cons y ys ih =>
    rw [insertByCountDesc]
    obtain ⟨hy, hys⟩ := List.pairwise_cons.mp h
    by_cases hc : y.listingsCount ≤ x.listingsCount
    · rw [if_pos hc, List.pairwise_cons]
      refine ⟨?_, h⟩
      intro b hb
      rcases List.mem_cons.mp hb with rfl | hbys
      · exact hc
      · exact le_trans (hy b hbys) hc
    · rw [if_neg hc, List.pairwise_cons]
      push_neg at hc
      refine ⟨?_, ih hys⟩
      intro b hb
      rcases List.mem_cons.mp ((insertByCountDesc_perm x ys).mem_iff.mp hb) with rfl | hbys
      · exact le_of_lt hc
      · exact hy b hbys

lemma sortByCountDesc_sorted (l : List HostEntry) :
    (sortByCountDesc l).Pairwise (fun a b => b.listingsCount ≤ a.listingsCount) := by
  induction l with
  | nil => simp [sortByCountDesc]
  | cons x xs ih =>
    rw [sortByCountDesc]
    exact pairwise_insertByCountDesc x _ ih

lemma filter_insertByCountDesc (x : HostEntry) (l : List HostEntry) (c : Nat) :
    (insertByCountDesc x l).filter (fun e => decide (e.listingsCount = c)) =
      if x.listingsCount = c then x :: l.filter (fun e => decide (e.listingsCount = c))
      else l.filter (fun e => decide (e.listingsCount = c)) := by
  induction l with
  | nil =>
    rw [insertByCountDesc]
    by_cases hx : x.listingsCount = c <;> simp [hx, List.filter]
  | cons y ys ih =>
    rw [insertByCountDesc]
    by_cases hc : y.listingsCount ≤ x.listingsCount
    · rw [if_pos hc]
      by_cases hx : x.listingsCount = c
      · rw [if_pos hx, List.filter_cons_of_pos (by simp [hx])]
      · rw [if_neg hx, List.filter_cons_of_neg (by simp [hx])]
    · rw [if_neg hc]
      push_neg at hc
      by_cases hy : y.listingsCount = c
      · have hx : ¬(x.listingsCount = c) := by omega
        rw [if_neg hx, List.filter_cons_of_pos (by simp [hy]),
          List.filter_cons_of_pos (by simp [hy]), ih, if_neg hx]
      · rw [List.filter_cons_of_neg (by simp [hy]), List.filter_cons_of_neg (by simp [hy]), ih]

lemma sortByCountDesc_stable (l : List HostEntry) (c : Nat) :
    (sortByCountDesc l).filter (fun e => decide (e.listingsCount = c)) =
      l.filter (fun e => decide (e.listingsCount = c)) := by
  induction l with
  | nil => rfl
  | cons x xs ih =>
    rw [sortByCountDesc, filter_insertByCountDesc]
    by_cases hx : x.listingsCount = c
    · rw [if_pos hx, ih, List.filter_cons_of_pos (by simp [hx])]
    · rw [if_neg hx, ih, List.filter_cons_of_neg (by simp [hx])]

/-- C8: `computeHostRanking()` yields exactly one entry per distinct non-empty
host identifier occurring in the snapshot: each entry's count is the number of
current records with that host identifier, its display name comes from the
first record encountered for that host (later records never overwrite it),
every non-empty host identifier occurring in the snapshot gets an entry, and
records with an empty host identifier contribute to no entry. -/
theorem host_ranking_entry_content (l : List Listing) :
    ((computeHostRanking l).map HostEntry.host_id).Nodup
    ∧ (∀ e ∈ computeHostRanking l, e.host_id ≠ ""
        ∧ e.listingsCount = l.countP (fun r => decide (r.host_id = e.host_id))
        ∧ ∃ r, l.find? (fun r' => decide (r'.host_id = e.host_id)) = some r
            ∧ e.host_name = r.host_name)
    ∧ (∀ h, h ≠ "" → (∃ r ∈ l, r.host_id = h) →
        ∃ e ∈ computeHostRanking l, e.host_id = h) := by
  have hperm := computeHostRanking_perm l
  refine ⟨((hperm.map HostEntry.host_id).nodup_iff).mpr (hostTally_keys_nodup l), ?_, ?_⟩
  · intro e he
    have he' : e ∈ hostTally l := hperm.mem_iff.mp he
    have hne : e.host_id ≠ "" := hostTally_keys_ne_empty l e he'
    have hfind : (hostTally l).find? (fun e' => decide (e'.host_id = e.host_id)) = some e :=
      find?_eq_some_of_mem_nodup _ (hostTally_keys_nodup l) e he'
    rcases hfound : l.find? (fun r' => decide (r'.host_id = e.host_id)) with _ | r
    · have hnone := hostFold_find_none l [] e.host_id rfl hfound
      rw [hostTally] at hfind
      rw [hnone] at hfind
      exact absurd hfind (by simp)
    · have hnew := hostFold_find_new l [] e.host_id hne rfl r hfound
      rw [hostTally] at hfind
      have heq : (⟨e.host_id, jsStrOr r.host_name "",
          l.countP (fun r' => decide (r'.host_id = e.host_id))⟩ : HostEntry) = e :=
        Option.some.inj (hnew.symm.trans hfind)
      refine ⟨hne, ?_, r, hfound, ?_⟩
      · exact (congrArg HostEntry.listingsCount heq).symm
      · exact ((congrArg HostEntry.host_name heq).symm).trans (jsStrOr_empty _)
  · intro h hne hex
    obtain ⟨r0, hr0, hid⟩ := hex
    have h1 : (l.find? (fun r' => decide (r'.host_id = h))).isSome :=
      List.find?_isSome.mpr ⟨r0, hr0, by simp [hid]⟩
    obtain ⟨r, hfound⟩ := Option.isSome_iff_exists.mp h1
    have hnew := hostFold_find_new l [] h hne rfl r hfound
    exact ⟨⟨h, jsStrOr r.host_name "", l.countP (fun r' => decide (r'.host_id = h))⟩,
      hperm.mem_iff.mpr (by rw [hostTally]; exact List.mem_of_find?_eq_some hnew), rfl⟩

lemma firstHosts_subset_ids (l : List Listing) (seen : List String) :
    ∀ s ∈ firstHosts seen l, ∃ r ∈ l, r.host_id = s := by
  induction l generalizing seen with
  | nil => simp [firstHosts]
  | cons x xs ih =>
    rw [firstHosts]
    by_cases hc : (decide (x.host_id = "") || seen.contains x.host_id) = true
    · rw [if_pos hc]
      intro s hs
      obtain ⟨r, hr, hid⟩ := ih seen s hs
      exact ⟨r, by simp [hr], hid⟩
    · rw [if_neg hc]
      intro s hs
      rcases List.mem_cons.mp hs with rfl | hs'
      · exact ⟨x, by simp, rfl⟩
      · obtain ⟨r, hr, hid⟩ := ih (seen ++ [x.host_id]) s hs'
        exact ⟨r, by simp [hr], hid⟩

/-- Counterexample to C4 as stated: on a snapshot whose host ids are the
array-index strings "2" then "1", both hosts have one listing each, yet the
ranking lists host "1" before host "2" — ascending numeric key order from the
tally object's property enumeration, not the order in which the hosts were
first encountered ("2" before "1"). -/
theorem host_ranking_tiebreak_counterexample :
    ([⟨1, 0, 0, "2", "two", []⟩, ⟨1, 0, 0, "1", "one", []⟩] : List Listing).map
        Listing.host_id = ["2", "1"]
    ∧ (computeHostRanking [⟨1, 0, 0, "2", "two", []⟩, ⟨1, 0, 0, "1", "one", []⟩]).map
        HostEntry.host_id = ["1", "2"]
    ∧ (computeHostRanking [⟨1, 0, 0, "2", "two", []⟩, ⟨1, 0, 0, "1", "one", []⟩]).map
        HostEntry.listingsCount = [1, 1]
    ∧ (["1", "2"] : List String) ≠ ["2", "1"] :=
  ⟨rfl, by rfl, by rfl, by decide⟩

/-- C4 (amended): the ranking is sorted in descending order of listing count,
and entries with equal counts appear in the enumeration order of the tally
object's properties — host ids that are canonical array-index strings first,
in ascending numeric order, then the remaining hosts in the order first
encountered; in particular, when no host id is an array-index string, equal
counts appear exactly in first-encountered order, and the spec's example
[A,A,B,A,"",C] yields A:3, B:1, C:1. -/
theorem host_ranking_sorted_and_ties (l : List Listing) :
    (computeHostRanking l).Pairwise (fun a b => b.listingsCount ≤ a.listingsCount)
    ∧ (∀ c, (computeHostRanking l).filter (fun e => decide (e.listingsCount = c)) =
        (jsOwnValues (hostTally l)).filter (fun e => decide (e.listingsCount = c)))
    ∧ (hostTally l).map HostEntry.host_id = firstHosts [] l
    ∧ ((∀ r ∈ l, isArrayIndexKey r.host_id = false) →
        ∀ c, (computeHostRanking l).filter (fun e => decide (e.listingsCount = c)) =
          (hostTally l).filter (fun e => decide (e.listingsCount = c)))
    ∧ computeHostRanking [⟨1, 0, 0, "A", "al", []⟩, ⟨1, 0, 0, "A", "a2", []⟩,
        ⟨1, 0, 0, "B", "bo", []⟩, ⟨1, 0, 0, "A", "a3", []⟩, ⟨1, 0, 0, "", "x", []⟩,
        ⟨1, 0, 0, "C", "ca", []⟩] = [⟨"A", "al", 3⟩, ⟨"B", "bo", 1⟩, ⟨"C", "ca", 1⟩] := by
  refine ⟨?_, ?_, hostTally_map_id l, ?_, by rfl⟩
  · rw [computeHostRanking]
    exact sortByCountDesc_sorted _
  · intro c
    rw [computeHostRanking]
    exact sortByCountDesc_stable _ c
  · intro hall c
    have hidx : ∀ e ∈ hostTally l, isArrayIndexKey e.host_id = false := by
      intro e he
      have hkey : e.host_id ∈ (hostTally l).map HostEntry.host_id :=
        List.mem_map.mpr ⟨e, he, rfl⟩
      rw [hostTally_map_id] at hkey
      obtain ⟨r, hr, hid⟩ := firstHosts_subset_ids l [] e.host_id hkey
      rw [← hid]
      exact hall r hr
    have hown : jsOwnValues (hostTally l) = hostTally l := by
      rw [jsOwnValues]
      have h1 : (hostTally l).filter (fun e => isArrayIndexKey e.host_id) = [] :=
        List.filter_eq_nil_iff.mpr (fun e he => by simp [hidx e he])
      have h2 : (hostTally l).filter (fun e => !isArrayIndexKey e.host_id) = hostTally l :=
        List.filter_eq_self.mpr (fun e he => by simp [hidx e he])
      rw [h1, h2]
      rfl
    rw [computeHostRanking, hown]
    exact sortByCountDesc_stable _ c

/-- Witness for `host_ranking_sorted_and_ties` on a concrete snapshot with no
array-index host ids, at count 1. -/
theorem host_ranking_sorted_and_ties_witness :
    (computeHostRanking [⟨1, 0, 0, "A", "al", []⟩, ⟨1, 0, 0, "B", "bo", []⟩]).filter
        (fun e => decide (e.listingsCount = 1)) =
      (hostTally [⟨1, 0, 0, "A", "al", []⟩, ⟨1, 0, 0, "B", "bo", []⟩]).filter
        (fun e => decide (e.listingsCount = 1)) :=
  (host_ranking_sorted_and_ties [⟨1, 0, 0, "A", "al", []⟩,
    ⟨1, 0, 0, "B", "bo", []⟩]).2.2.2.1 (by decide) 1

/-- Witness for `host_ranking_entry_content` on a one-record snapshot with
host id "A". -/
theorem host_ranking_entry_content_witness :
    ((⟨"A", "al", 1⟩ : HostEntry).host_id ≠ ""
      ∧ (⟨"A", "al", 1⟩ : HostEntry).listingsCount =
          ([⟨1, 0, 0, "A", "al", []⟩] : List Listing).countP
            (fun r => decide (r.host_id = (⟨"A", "al", 1⟩ : HostEntry).host_id))
      ∧ ∃ r, ([⟨1, 0, 0, "A", "al", []⟩] : List Listing).find?
            (fun r' => decide (r'.host_id = (⟨"A", "al", 1⟩ : HostEntry).host_id)) = some r
          ∧ (⟨"A", "al", 1⟩ : HostEntry).host_name = r.host_name)
    ∧ ∃ e ∈ computeHostRanking [⟨1, 0, 0, "A", "al", []⟩], e.host_id = "A" :=
  ⟨(host_ranking_entry_content [⟨1, 0, 0, "A", "al", []⟩]).2.1 ⟨"A", "al", 1⟩ (by decide),
    (host_ranking_entry_content [⟨1, 0, 0, "A", "al", []⟩]).2.2 "A" (by simp)
      ⟨⟨1, 0, 0, "A", "al", []⟩, by simp, rfl⟩⟩
